import Mathlib

/-!
Shallow embedding of the communications listing widget's core pipeline
(`SearchIndexService`, `CommunicationDataService`, `CardListComponent.renderCards`
from `src/app.js`), together with theorems settling the specification claims.

Strings are modelled as `List Char` (`Str`); JavaScript `Map`s as association
lists in insertion order; JS `Set`s as duplicate-free lists in insertion order;
thrown `TypeError`s as `Except.error`.  Dates are modelled at day granularity
(days since the Unix epoch, UTC), mirroring the source's practice of comparing
dates normalized to midnight.
-/

namespace Comm

abbrev Str := List Char

/-- Character list of a string literal. -/
def strOf (s : String) : Str := s.data

/-- JS `String.prototype.trim` (ASCII whitespace). -/
def trim (s : Str) : Str :=
  ((s.dropWhile Char.isWhitespace).reverse.dropWhile Char.isWhitespace).reverse

/-- JS `String.prototype.toLowerCase` (data here is ASCII). -/
def lower (s : Str) : Str := s.map Char.toLower

/-- Auxiliary for `splitWs`: `cur` is the reversed token being built, the flag
records whether we are inside a whitespace run whose token was already pushed. -/
def splitWsAux : List Char → List Char → Bool → List Str
  | [], cur, _ => [cur.reverse]
  | c :: rest, cur, inWs =>
    if c.isWhitespace then
      if inWs then splitWsAux rest cur true
      else cur.reverse :: splitWsAux rest [] true
    else splitWsAux rest (c :: cur) false

/-- JS `split(/\s+/)`: split on maximal whitespace runs, keeping the (possibly
empty) fragments before the first and after the last run. -/
def splitWs (s : Str) : List Str := splitWsAux s [] false

/-- JS `String.prototype.isPrefixOf`-style check is `List.isPrefixOf`; this is
`String.prototype.includes`: substring occurrence. -/
def containsStr (hay needle : Str) : Bool :=
  hay.tails.any (fun t => needle.isPrefixOf t)

/-- Facet property of a record: the source stores either a plain string or an
array of strings and branches on `Array.isArray`. -/
inductive FacetVal where
  | scalar : Str → FacetVal
  | arr : List Str → FacetVal
deriving DecidableEq, Repr

/-- A record of the collection (the fields the core pipeline reads). -/
structure Item where
  title : Str
  summary : Option Str
  date : Str
  topic : FacetVal
  productCategory : FacetVal
  communicationType : FacetVal
deriving DecidableEq, Repr

/-- Record with only a title, all other fields inert. -/
def mkItem (t : Str) : Item :=
  ⟨t, none, [], FacetVal.scalar [], FacetVal.scalar [], FacetVal.scalar []⟩

/-- Inverted index: JS `Map` from token to list of owning records, both in
insertion order. -/
abbrev Index := List (Str × List Item)

/-- JS `if (!list.includes(item)) list.push(item)`. -/
def pushItem (l : List Item) (it : Item) : List Item :=
  if l.contains it then l else l ++ [it]

/-- One `titleWords.forEach` step of `SearchIndexService.indexData`: append the
record to the token's bucket (creating the bucket at the end of the map if
absent), never duplicating a record within one bucket. -/
def insertIndex : Index → Str → Item → Index
  | [], w, it => [(w, [it])]
  | (w', l) :: rest, w, it =>
    if w' = w then (w', pushItem l it) :: rest
    else (w', l) :: insertIndex rest w it

/-- Index every token of one record. -/
def indexWords (it : Item) : List Str → Index → Index
  | [], idx => idx
  | w :: ws, idx => indexWords it ws (insertIndex idx w it)

/-- Tokens contributed by a title: lower-case then split on whitespace runs. -/
def titleTokens (it : Item) : List Str := splitWs (lower it.title)

/-- The summary text, with the JS-falsy values `undefined` and the empty
string both collapsing to the empty string. -/
def summaryRaw (it : Item) : Str := it.summary.getD []

/-- Tokens contributed by a summary.  The source guards with JS truthiness
(`this.indexSummary && item.summary`), so an absent or empty summary
contributes nothing. -/
def summaryTokens (it : Item) : List Str :=
  if summaryRaw it = [] then [] else splitWs (lower (summaryRaw it))

/-- Build `this.titleIndex` of `SearchIndexService.indexData`. -/
def titleIndexAux : List Item → Index → Index
  | [], idx => idx
  | it :: its, idx => titleIndexAux its (indexWords it (titleTokens it) idx)

def titleIndex (data : List Item) : Index := titleIndexAux data []

/-- Build `this.summaryIndex` of `SearchIndexService.indexData`. -/
def summaryIndexAux : List Item → Index → Index
  | [], idx => idx
  | it :: its, idx => summaryIndexAux its (indexWords it (summaryTokens it) idx)

def summaryIndex (data : List Item) : Index := summaryIndexAux data []

/-- JS `Set.add` over the result accumulator (first-insertion order kept). -/
def addAll : List Item → List Item → List Item
  | [], acc => acc
  | it :: its, acc => addAll its (pushItem acc it)

/-- The `index.forEach((items, word) => if (pred word) items.forEach(add))`
loop of `SearchIndexService.search`. -/
def collect (p : Str → Bool) : Index → List Item → List Item
  | [], acc => acc
  | (w, its) :: rest, acc => collect p rest (if p w then addAll its acc else acc)

/-- Search both indexes (the summary one only when enabled), collecting the
records of every token satisfying `p` into one set. -/
def collectBoth (data : List Item) (indexSummary : Bool) (p : Str → Bool) : List Item :=
  if indexSummary then collect p (summaryIndex data) (collect p (titleIndex data) [])
  else collect p (titleIndex data) []

/-- `SearchIndexService.search`: empty/whitespace query short-circuits to `[]`,
otherwise every record owning an indexed token that contains the lower-cased
trimmed query as a substring is collected into a set. -/
def search (data : List Item) (indexSummary : Bool) (query : Str) : List Item :=
  if trim query = [] then []
  else collectBoth data indexSummary (fun w => containsStr w (trim (lower query)))

/-- The tokens of a record that are indexed for it, per the indexing mode. -/
def indexedTokens (indexSummary : Bool) (it : Item) : List Str :=
  titleTokens it ++ (if indexSummary then summaryTokens it else [])

/-! Lemmas about tokenization. -/

theorem splitWsAux_ws_free :
    ∀ (s : List Char) (cur : List Char) (b : Bool),
      (∀ c ∈ cur, c.isWhitespace = false) →
      ∀ t ∈ splitWsAux s cur b, ∀ c ∈ t, c.isWhitespace = false := by
  intro s
  induction s with
  | nil =>
    intro cur b hcur t ht c hc
    simp only [splitWsAux, List.mem_singleton] at ht
    subst ht
    exact hcur c (List.mem_reverse.mp hc)
  | cons a rest ih =>
    intro cur b hcur t ht c hc
    simp only [splitWsAux] at ht
    by_cases ha : a.isWhitespace
    · rw [if_pos ha] at ht
      cases b with
      | true => exact ih cur true hcur t (by simpa using ht) c hc
      | false =>
        rw [if_neg (by simp)] at ht
        rcases List.mem_cons.mp ht with h1 | h2
        · subst h1; exact hcur c (List.mem_reverse.mp hc)
        · exact ih [] true (by simp) t h2 c hc
    · rw [if_neg ha] at ht
      refine ih (a :: cur) false ?_ t ht c hc
      intro d hd
      rcases List.mem_cons.mp hd with h1 | h2
      · subst h1; simpa using ha
      · exact hcur d h2

theorem splitWs_ws_free (s : Str) :
    ∀ t ∈ splitWs s, ∀ c ∈ t, c.isWhitespace = false :=
  splitWsAux_ws_free s [] false (by simp)

theorem titleTokens_ws_free (it : Item) :
    ∀ t ∈ titleTokens it, ∀ c ∈ t, c.isWhitespace = false :=
  splitWs_ws_free _

theorem summaryTokens_ws_free (it : Item) :
    ∀ t ∈ summaryTokens it, ∀ c ∈ t, c.isWhitespace = false := by
  unfold summaryTokens
  by_cases h : summaryRaw it = []
  · simp [h]
  · rw [if_neg h]; exact splitWs_ws_free _

/-! Lemmas about set insertion. -/

theorem mem_pushItem {acc : List Item} {it x : Item} :
    x ∈ pushItem acc it ↔ x ∈ acc ∨ x = it := by
  unfold pushItem
  by_cases h : acc.contains it
  · rw [if_pos h]
    simp only [List.contains, List.elem_eq_mem, decide_eq_true_eq] at h
    constructor
    · exact Or.inl
    · rintro (hx | rfl)
      · exact hx
      · exact h
  · rw [if_neg h]
    simp

theorem pushItem_nodup {acc : List Item} {it : Item} (h : acc.Nodup) :
    (pushItem acc it).Nodup := by
  unfold pushItem
  by_cases hc : acc.contains it
  · rwa [if_pos hc]
  · rw [if_neg hc]
    simp only [List.contains, List.elem_eq_mem, decide_eq_true_eq] at hc
    simp [List.nodup_append, h, hc]

theorem mem_addAll :
    ∀ (l acc : List Item) (x : Item), x ∈ addAll l acc → x ∈ acc ∨ x ∈ l := by
  intro l
  induction l with
  | nil => intro acc x h; exact Or.inl h
  | cons a rest ih =>
    intro acc x h
    rcases ih (pushItem acc a) x h with h1 | h2
    · rcases mem_pushItem.mp h1 with h3 | rfl
      · exact Or.inl h3
      · exact Or.inr (List.mem_cons_self _ _)
    · exact Or.inr (List.mem_cons_of_mem _ h2)

theorem addAll_nodup :
    ∀ (l acc : List Item), acc.Nodup → (addAll l acc).Nodup := by
  intro l
  induction l with
  | nil => intro acc h; exact h
  | cons a rest ih => intro acc h; exact ih _ (pushItem_nodup h)

/-! Lemmas about the search collection loop. -/

theorem mem_collect {p : Str → Bool} :
    ∀ (idx : Index) (acc : List Item) (x : Item), x ∈ collect p idx acc →
      x ∈ acc ∨ ∃ w its, (w, its) ∈ idx ∧ p w = true ∧ x ∈ its := by
  intro idx
  induction idx with
  | nil => intro acc x h; exact Or.inl h
  | cons e rest ih =>
    intro acc x h
    obtain ⟨w, its⟩ := e
    simp only [collect] at h
    rcases ih _ x h with h1 | ⟨w', its', hmem, hp, hx⟩
    · by_cases hp : p w = true
      · rw [if_pos hp] at h1
        rcases mem_addAll _ _ _ h1 with h2 | h2
        · exact Or.inl h2
        · exact Or.inr ⟨w, its, List.mem_cons_self _ _, hp, h2⟩
      · rw [if_neg hp] at h1
        exact Or.inl h1
    · exact Or.inr ⟨w', its', List.mem_cons_of_mem _ hmem, hp, hx⟩

theorem collect_nodup {p : Str → Bool} :
    ∀ (idx : Index) (acc : List Item), acc.Nodup → (collect p idx acc).Nodup := by
  intro idx
  induction idx with
  | nil => intro acc h; exact h
  | cons e rest ih =>
    intro acc h
    obtain ⟨w, its⟩ := e
    simp only [collect]
    by_cases hp : p w = true
    · rw [if_pos hp]; exact ih _ (addAll_nodup _ _ h)
    · rw [if_neg hp]; exact ih _ h

theorem collect_of_none {p : Str → Bool} :
    ∀ (idx : Index), (∀ w its, (w, its) ∈ idx → p w = false) →
      ∀ acc, collect p idx acc = acc := by
  intro idx
  induction idx with
  | nil => intro _ acc; rfl
  | cons e rest ih =>
    intro h acc
    obtain ⟨w, its⟩ := e
    simp only [collect]
    rw [if_neg (by simp [h w its (List.mem_cons_self _ _)]), ih (fun w' its' hm => h w' its' (List.mem_cons_of_mem _ hm)) acc]

/-! Index invariants: every entry's key is an indexed token of each record in
its bucket, and every key is whitespace-free. -/

def IdxInv (tokens : Item → List Str) (idx : Index) : Prop :=
  ∀ e ∈ idx, ∀ x ∈ e.2, e.1 ∈ tokens x

theorem idxInv_insert {tokens : Item → List Str} {idx : Index} {w : Str} {it : Item}
    (h : IdxInv tokens idx) (hw : w ∈ tokens it) :
    IdxInv tokens (insertIndex idx w it) := by
  induction idx with
  | nil =>
    intro e he x hx
    simp only [insertIndex, List.mem_singleton] at he
    subst he
    simp only [List.mem_singleton] at hx
    subst hx
    exact hw
  | cons e0 rest ih =>
    obtain ⟨w', l⟩ := e0
    intro e he x hx
    simp only [insertIndex] at he
    by_cases hww : w' = w
    · rw [if_pos hww] at he
      rcases List.mem_cons.mp he with h1 | h2
      · subst h1
        rcases mem_pushItem.mp hx with h3 | rfl
        · exact h (w', l) (List.mem_cons_self _ _) x h3
        · subst hww; exact hw
      · exact h e (List.mem_cons_of_mem _ h2) x hx
    · rw [if_neg hww] at he
      rcases List.mem_cons.mp he with h1 | h2
      · subst h1
        exact h (w', l) (List.mem_cons_self _ _) x hx
      · exact ih (fun e' he' => h e' (List.mem_cons_of_mem _ he')) e h2 x hx

theorem idxInv_indexWords {tokens : Item → List Str} {it : Item} :
    ∀ (ws : List Str) (idx : Index), IdxInv tokens idx →
      (∀ w ∈ ws, w ∈ tokens it) → IdxInv tokens (indexWords it ws idx) := by
  intro ws
  induction ws with
  | nil => intro idx h _; exact h
  | cons w rest ih =>
    intro idx h hws
    exact ih _ (idxInv_insert h (hws w (List.mem_cons_self _ _)))
      (fun w' hw' => hws w' (List.mem_cons_of_mem _ hw'))

theorem titleIndex_inv (data : List Item) : IdxInv titleTokens (titleIndex data) := by
  suffices h : ∀ (l : List Item) (idx : Index), IdxInv titleTokens idx →
      IdxInv titleTokens (titleIndexAux l idx) by
    exact h data [] (by intro e he; simp at he)
  intro l
  induction l with
  | nil => intro idx h; exact h
  | cons it rest ih =>
    intro idx h
    exact ih _ (idxInv_indexWords _ _ h (fun w hw => hw))

theorem summaryIndex_inv (data : List Item) : IdxInv summaryTokens (summaryIndex data) := by
  suffices h : ∀ (l : List Item) (idx : Index), IdxInv summaryTokens idx →
      IdxInv summaryTokens (summaryIndexAux l idx) by
    exact h data [] (by intro e he; simp at he)
  intro l
  induction l with
  | nil => intro idx h; exact h
  | cons it rest ih =>
    intro idx h
    exact ih _ (idxInv_indexWords _ _ h (fun w hw => hw))

def KeysWsFree (idx : Index) : Prop :=
  ∀ e ∈ idx, ∀ c ∈ e.1, c.isWhitespace = false

theorem keysWsFree_insert {idx : Index} {w : Str} {it : Item}
    (h : KeysWsFree idx) (hw : ∀ c ∈ w, c.isWhitespace = false) :
    KeysWsFree (insertIndex idx w it) := by
  induction idx with
  | nil =>
    intro e he
    simp only [insertIndex, List.mem_singleton] at he
    subst he
    exact hw
  | cons e0 rest ih =>
    obtain ⟨w', l⟩ := e0
    intro e he
    simp only [insertIndex] at he
    by_cases hww : w' = w
    · rw [if_pos hww] at he
      rcases List.mem_cons.mp he with h1 | h2
      · subst h1; exact h (w', l) (List.mem_cons_self _ _)
      · exact h e (List.mem_cons_of_mem _ h2)
    · rw [if_neg hww] at he
      rcases List.mem_cons.mp he with h1 | h2
      · subst h1; exact h (w', l) (List.mem_cons_self _ _)
      · exact ih (fun e' he' => h e' (List.mem_cons_of_mem _ he')) e h2

theorem keysWsFree_indexWords {it : Item} :
    ∀ (ws : List Str) (idx : Index), KeysWsFree idx →
      (∀ w ∈ ws, ∀ c ∈ w, c.isWhitespace = false) →
      KeysWsFree (indexWords it ws idx) := by
  intro ws
  induction ws with
  | nil => intro idx h _; exact h
  | cons w rest ih =>
    intro idx h hws
    exact ih _ (keysWsFree_insert h (hws w (List.mem_cons_self _ _)))
      (fun w' hw' => hws w' (List.mem_cons_of_mem _ hw'))

theorem titleIndex_keys_ws_free (data : List Item) : KeysWsFree (titleIndex data) := by
  suffices h : ∀ (l : List Item) (idx : Index), KeysWsFree idx →
      KeysWsFree (titleIndexAux l idx) by
    exact h data [] (by intro e he; simp at he)
  intro l
  induction l with
  | nil => intro idx h; exact h
  | cons it rest ih =>
    intro idx h
    exact ih _ (keysWsFree_indexWords _ _ h (titleTokens_ws_free it))

theorem summaryIndex_keys_ws_free (data : List Item) : KeysWsFree (summaryIndex data) := by
  suffices h : ∀ (l : List Item) (idx : Index), KeysWsFree idx →
      KeysWsFree (summaryIndexAux l idx) by
    exact h data [] (by intro e he; simp at he)
  intro l
  induction l with
  | nil => intro idx h; exact h
  | cons it rest ih =>
    intro idx h
    exact ih _ (keysWsFree_indexWords _ _ h (summaryTokens_ws_free it))

/-- The substring test of the source agrees with list-infix. -/
theorem containsStr_iff {hay needle : Str} :
    containsStr hay needle = true ↔ needle <:+: hay := by
  rw [containsStr, List.any_eq_true, List.infix_iff_prefix_suffix]
  constructor
  · rintro ⟨t, ht, hp⟩
    exact ⟨t, by simpa using hp, (List.mem_tails _ _).mp ht⟩
  · rintro ⟨t, hp, hs⟩
    exact ⟨t, (List.mem_tails _ _).mpr hs, by simpa using hp⟩

end Comm

namespace Comm

/-- C3: for every non-empty, non-whitespace search term, every record returned
by `search` has the lower-cased trimmed term as a substring of at least one
indexed token (whitespace-split word of the lower-cased title, or of the
summary when summary indexing is enabled) of that record, and each record
appears at most once in the result. -/
theorem search_substring_sound (data : List Item) (flag : Bool) (q : Str)
    (hq : trim q ≠ []) :
    (∀ it ∈ search data flag q,
        ∃ tok ∈ indexedTokens flag it, trim (lower q) <:+: tok) ∧
    (search data flag q).Nodup := by
  unfold search
  rw [if_neg hq]
  constructor
  · intro it hit
    cases flag with
    | false =>
      rw [collectBoth, if_neg Bool.false_ne_true] at hit
      rcases mem_collect _ _ _ hit with h0 | ⟨w, its, hmem, hpw, hits⟩
      · exact absurd h0 (List.not_mem_nil it)
      · refine ⟨w, ?_, containsStr_iff.mp hpw⟩
        exact List.mem_append_left _ (titleIndex_inv data (w, its) hmem it hits)
    | true =>
      rw [collectBoth, if_pos rfl] at hit
      rcases mem_collect _ _ _ hit with h0 | ⟨w, its, hmem, hpw, hits⟩
      · rcases mem_collect _ _ _ h0 with h1 | ⟨w, its, hmem, hpw, hits⟩
        · exact absurd h1 (List.not_mem_nil it)
        · refine ⟨w, ?_, containsStr_iff.mp hpw⟩
          exact List.mem_append_left _ (titleIndex_inv data (w, its) hmem it hits)
      · refine ⟨w, ?_, containsStr_iff.mp hpw⟩
        refine List.mem_append_right _ ?_
        rw [if_pos rfl]
        exact summaryIndex_inv data (w, its) hmem it hits
  · cases flag with
    | false =>
      rw [collectBoth, if_neg Bool.false_ne_true]
      exact collect_nodup _ _ List.nodup_nil
    | true =>
      rw [collectBoth, if_pos rfl]
      exact collect_nodup _ _ (collect_nodup _ _ List.nodup_nil)

theorem search_substring_sound_witness :
    trim (strOf "fan") ≠ [] ∧
    ((∀ it ∈ search [mkItem (strOf "Fan Array Guide")] false (strOf "fan"),
        ∃ tok ∈ indexedTokens false it, trim (lower (strOf "fan")) <:+: tok) ∧
      (search [mkItem (strOf "Fan Array Guide")] false (strOf "fan")).Nodup) :=
  ⟨by decide, search_substring_sound _ _ _ (by decide)⟩

/-- C9: since indexing splits fields on whitespace runs and `search` matches
the query only as a substring of individual tokens, any query whose trimmed
lower-cased form still contains a whitespace character returns the empty list,
even when a record's title contains the multi-word phrase verbatim. -/
theorem search_multiword_empty (data : List Item) (flag : Bool) (q : Str)
    (h : ∃ c ∈ trim (lower q), c.isWhitespace = true) :
    search data flag q = [] := by
  unfold search
  by_cases hq : trim q = []
  · rw [if_pos hq]
  · rw [if_neg hq]
    obtain ⟨c, hc, hcw⟩ := h
    have key : ∀ (idx : Index), KeysWsFree idx →
        ∀ w its, (w, its) ∈ idx → containsStr w (trim (lower q)) = false := by
      intro idx hfree w its hmem
      cases hcs : containsStr w (trim (lower q)) with
      | false => rfl
      | true =>
        have hinf := containsStr_iff.mp hcs
        have hsub : c ∈ w := hinf.sublist.subset hc
        have := hfree (w, its) hmem c hsub
        rw [hcw] at this
        exact absurd this (by simp)
    rw [collectBoth]
    cases flag with
    | false =>
      rw [if_neg Bool.false_ne_true]
      exact collect_of_none _ (key _ (titleIndex_keys_ws_free data)) []
    | true =>
      rw [if_pos rfl,
        collect_of_none _ (key _ (titleIndex_keys_ws_free data)) [],
        collect_of_none _ (key _ (summaryIndex_keys_ws_free data)) []]

theorem search_multiword_empty_witness :
    (∃ c ∈ trim (lower (strOf "fan array")), c.isWhitespace = true) ∧
    search [mkItem (strOf "Fan Array Guide")] false (strOf "fan array") = [] :=
  ⟨by decide, search_multiword_empty _ _ _ (by decide)⟩

end Comm

namespace Comm

/-- JS `word.replace(/:/g, "")` in `SearchIndexService.getSuggestions`. -/
def stripColons (w : Str) : Str := w.filter (fun c => decide (c ≠ ':'))

/-- JS `Set.add` over the suggestion accumulator. -/
def addStr (acc : List Str) (w : Str) : List Str :=
  if acc.contains w then acc else acc ++ [w]

/-- The `index.forEach((_, word) => if (word startsWith term) add (clean word))`
loop of `SearchIndexService.getSuggestions`: the colon stripping happens after
the startsWith test, exactly as in the source. -/
def collectSugg (p : Str → Bool) : Index → List Str → List Str
  | [], acc => acc
  | (w, _) :: rest, acc => collectSugg p rest (if p w then addStr acc (stripColons w) else acc)

/-- The suggestion set gathered from both indexes for the processed term. -/
def suggSet (data : List Item) (indexSummary : Bool) (t : Str) : List Str :=
  if indexSummary then
    collectSugg (fun w => t.isPrefixOf w) (summaryIndex data)
      (collectSugg (fun w => t.isPrefixOf w) (titleIndex data) [])
  else collectSugg (fun w => t.isPrefixOf w) (titleIndex data) []

/-- JS default `Array.prototype.sort` comparison on strings: lexicographic by
code unit. -/
def strLe : Str → Str → Bool
  | [], _ => true
  | _ :: _, [] => false
  | a :: as, b :: bs => if a = b then strLe as bs else decide (a < b)

/-- `SearchIndexService.getSuggestions`: guard empty input, collect cleaned
matching tokens into a set, sort ascending, truncate to `limit`. -/
def getSuggestions (data : List Item) (indexSummary : Bool) (pre : Str) (limit : Nat) : List Str :=
  if trim pre = [] then []
  else ((suggSet data indexSummary (trim (lower pre))).mergeSort strLe).take limit

theorem mem_addStr {acc : List Str} {w x : Str} :
    x ∈ addStr acc w ↔ x ∈ acc ∨ x = w := by
  unfold addStr
  by_cases h : acc.contains w
  · rw [if_pos h]
    simp only [List.contains, List.elem_eq_mem, decide_eq_true_eq] at h
    constructor
    · exact Or.inl
    · rintro (hx | rfl)
      · exact hx
      · exact h
  · rw [if_neg h]
    simp

theorem addStr_nodup {acc : List Str} {w : Str} (h : acc.Nodup) :
    (addStr acc w).Nodup := by
  unfold addStr
  by_cases hc : acc.contains w
  · rwa [if_pos hc]
  · rw [if_neg hc]
    simp only [List.contains, List.elem_eq_mem, decide_eq_true_eq] at hc
    simp [List.nodup_append, h, hc]

theorem mem_collectSugg {p : Str → Bool} :
    ∀ (idx : Index) (acc : List Str) (x : Str), x ∈ collectSugg p idx acc →
      x ∈ acc ∨ ∃ w, (∃ its, (w, its) ∈ idx) ∧ p w = true ∧ x = stripColons w := by
  intro idx
  induction idx with
  | nil => intro acc x h; exact Or.inl h
  | cons e rest ih =>
    intro acc x h
    obtain ⟨w, its⟩ := e
    simp only [collectSugg] at h
    rcases ih _ x h with h1 | ⟨w', ⟨its', hmem⟩, hp, hx⟩
    · by_cases hp : p w = true
      · rw [if_pos hp] at h1
        rcases mem_addStr.mp h1 with h2 | rfl
        · exact Or.inl h2
        · exact Or.inr ⟨w, ⟨its, List.mem_cons_self _ _⟩, hp, rfl⟩
      · rw [if_neg hp] at h1
        exact Or.inl h1
    · exact Or.inr ⟨w', ⟨its', List.mem_cons_of_mem _ hmem⟩, hp, hx⟩

theorem collectSugg_nodup {p : Str → Bool} :
    ∀ (idx : Index) (acc : List Str), acc.Nodup → (collectSugg p idx acc).Nodup := by
  intro idx
  induction idx with
  | nil => intro acc h; exact h
  | cons e rest ih =>
    intro acc h
    obtain ⟨w, its⟩ := e
    simp only [collectSugg]
    by_cases hp : p w = true
    · rw [if_pos hp]; exact ih _ (addStr_nodup h)
    · rw [if_neg hp]; exact ih _ h

theorem strLe_trans : ∀ (a b c : Str), strLe a b = true → strLe b c = true → strLe a c = true := by
  intro a
  induction a with
  | nil => intro b c _ _; rfl
  | cons x xs ih =>
    intro b c hab hbc
    cases b with
    | nil => simp [strLe] at hab
    | cons y ys =>
      cases c with
      | nil => simp [strLe] at hbc
      | cons z zs =>
        simp only [strLe] at hab hbc ⊢
        by_cases hxy : x = y
        · subst hxy
          rw [if_pos rfl] at hab
          by_cases hyz : x = z
          · subst hyz; rw [if_pos rfl] at hbc ⊢; exact ih _ _ hab hbc
          · rw [if_neg hyz] at hbc ⊢; exact hbc
        · rw [if_neg hxy] at hab
          by_cases hyz : y = z
          · subst hyz; rw [if_neg hxy]; exact hab
          · rw [if_neg hyz] at hbc
            simp only [decide_eq_true_eq] at hab hbc
            have hxz : x ≠ z := fun he => absurd (he ▸ lt_trans hab hbc) (lt_irrefl _)
            rw [if_neg hxz]
            simp only [decide_eq_true_eq]
            exact lt_trans hab hbc

theorem strLe_total : ∀ (a b : Str), strLe a b || strLe b a := by
  intro a
  induction a with
  | nil => intro b; simp [strLe]
  | cons x xs ih =>
    intro b
    cases b with
    | nil => simp [strLe]
    | cons y ys =>
      simp only [strLe]
      by_cases hxy : x = y
      · subst hxy
        rw [if_pos rfl, if_pos rfl]
        exact ih ys
      · rw [if_neg hxy, if_neg (Ne.symm hxy)]
        rcases lt_or_gt_of_ne hxy with h | h
      
        · simp [h]
        · simp [h]

theorem stripColons_keeps_colon_free_start {t w : Str}
    (ht : (':' : Char) ∉ t) (h : t <+: w) : t <+: stripColons w := by
  obtain ⟨r, rfl⟩ := h
  rw [stripColons, List.filter_append]
  have heq : t.filter (fun c => decide (c ≠ ':')) = t :=
    List.filter_eq_self.mpr (fun c hc => by
      simp only [decide_eq_true_eq]
      exact fun he => ht (he ▸ hc))
  rw [heq]
  exact ⟨_, rfl⟩

theorem stripColons_no_colon (w : Str) : (':' : Char) ∉ stripColons w := by
  intro h
  have := List.of_mem_filter h
  simp at this

/-- C4 (amended): for every non-empty, non-whitespace input and limit `n`,
`getSuggestions` returns at most `n` results, all distinct, sorted
lexicographically ascending, with every colon character stripped from the
returned tokens; and when the processed term itself contains no colon, every
result starts with it.  (The unconditional start-with property of the claim
fails: colons are stripped only after the startsWith test, see the
counterexample.) -/
theorem getSuggestions_spec (data : List Item) (flag : Bool) (pre : Str) (n : Nat)
    (hp : trim pre ≠ []) :
    (getSuggestions data flag pre n).length ≤ n ∧
    (getSuggestions data flag pre n).Nodup ∧
    (getSuggestions data flag pre n).Pairwise (fun a b => strLe a b = true) ∧
    (∀ s ∈ getSuggestions data flag pre n, (':' : Char) ∉ s) ∧
    ((':' : Char) ∉ trim (lower pre) →
      ∀ s ∈ getSuggestions data flag pre n, trim (lower pre) <+: s) := by
  unfold getSuggestions
  rw [if_neg hp]
  have hsugg : ∀ x ∈ suggSet data flag (trim (lower pre)),
      ∃ w, (trim (lower pre)).isPrefixOf w = true ∧ x = stripColons w := by
    intro x hx
    unfold suggSet at hx
    cases flag with
    | false =>
      rw [if_neg Bool.false_ne_true] at hx
      rcases mem_collectSugg _ _ _ hx with h0 | ⟨w, _, hpw, hxw⟩
      · exact absurd h0 (List.not_mem_nil x)
      · exact ⟨w, hpw, hxw⟩
    | true =>
      rw [if_pos rfl] at hx
      rcases mem_collectSugg _ _ _ hx with h0 | ⟨w, _, hpw, hxw⟩
      · rcases mem_collectSugg _ _ _ h0 with h1 | ⟨w, _, hpw, hxw⟩
        · exact absurd h1 (List.not_mem_nil x)
        · exact ⟨w, hpw, hxw⟩
      · exact ⟨w, hpw, hxw⟩
  have hnodup : (suggSet data flag (trim (lower pre))).Nodup := by
    unfold suggSet
    cases flag with
    | false =>
      rw [if_neg Bool.false_ne_true]
      exact collectSugg_nodup _ _ List.nodup_nil
    | true =>
      rw [if_pos rfl]
      exact collectSugg_nodup _ _ (collectSugg_nodup _ _ List.nodup_nil)
  refine ⟨?_, ?_, ?_, ?_, ?_⟩
  · rw [List.length_take]
    exact Nat.min_le_left _ _
  · exact ((List.mergeSort_perm _ _).symm.nodup hnodup).sublist (List.take_sublist _ _)
  · exact (List.sorted_mergeSort strLe_trans strLe_total _).sublist (List.take_sublist _ _)
  · intro s hs
    have hs' := List.mem_mergeSort.mp ((List.take_subset _ _) hs)
    obtain ⟨w, _, rfl⟩ := hsugg s hs'
    exact stripColons_no_colon w
  · intro hcolon s hs
    have hs' := List.mem_mergeSort.mp ((List.take_subset _ _) hs)
    obtain ⟨w, hpw, rfl⟩ := hsugg s hs'
    exact stripColons_keeps_colon_free_start hcolon (by simpa using hpw)

/-- C4 counterexample: the claim as stated fails, because a token's colons are
removed only after the startsWith test; a colon-containing term can therefore
return a suggestion it is not a start of. -/
theorem getSuggestions_colon_cex :
    getSuggestions [mkItem (strOf "re:cap")] false (strOf "re:") 5 = [strOf "recap"] ∧
    ¬ trim (lower (strOf "re:")) <+: strOf "recap" := by
  constructor
  · rw [getSuggestions, if_neg (by decide)]
    have h : suggSet [mkItem (strOf "re:cap")] false (trim (lower (strOf "re:"))) =
        [strOf "recap"] := by decide
    rw [h, List.mergeSort_singleton]
    rfl
  · decide

theorem getSuggestions_spec_witness :
    trim (strOf "re") ≠ [] ∧
    ((getSuggestions [mkItem (strOf "re:cap")] false (strOf "re") 5).length ≤ 5 ∧
      (getSuggestions [mkItem (strOf "re:cap")] false (strOf "re") 5).Nodup ∧
      (getSuggestions [mkItem (strOf "re:cap")] false (strOf "re") 5).Pairwise
        (fun a b => strLe a b = true) ∧
      (∀ s ∈ getSuggestions [mkItem (strOf "re:cap")] false (strOf "re") 5,
        (':' : Char) ∉ s) ∧
      ((':' : Char) ∉ trim (lower (strOf "re")) →
        ∀ s ∈ getSuggestions [mkItem (strOf "re:cap")] false (strOf "re") 5,
          trim (lower (strOf "re")) <+: s)) :=
  ⟨by decide, getSuggestions_spec _ _ _ _ (by decide)⟩

end Comm

namespace Comm

/-! Date arithmetic at day granularity.  JS `Date` stores a timestamp; getters
and setters go through the civil (proleptic Gregorian) calendar.  `daysFromCivil`
and `civilFromDays` are the standard conversions between a civil triple and a
day count from the Unix epoch; out-of-range months and days normalize exactly
like the JS setters (months roll into years, day overflow rolls into the
following months). -/

def isLeap (y : Int) : Bool :=
  y.emod 4 = 0 && (y.emod 100 ≠ 0 || y.emod 400 = 0)

/-- Civil date (with month in 1..12, day arbitrary) to days since 1970-01-01. -/
def daysFromCivil (y m d : Int) : Int :=
  let yy := if m ≤ 2 then y - 1 else y
  let era := yy.fdiv 400
  let yoe := yy - era * 400
  let mp := (m + 9).emod 12
  let doy := (153 * mp + 2).fdiv 5 + d - 1
  let doe := yoe * 365 + yoe.fdiv 4 - yoe.fdiv 100 + doy
  era * 146097 + doe - 719468

/-- JS-style date construction: any integer month (normalized into the year)
and day (normalized by linearity of `daysFromCivil` in `d`). -/
def jsDays (y m d : Int) : Int :=
  daysFromCivil (y + (m - 1).fdiv 12) ((m - 1).emod 12 + 1) d

/-- Days since 1970-01-01 back to the civil triple (year, month, day). -/
def civilFromDays (z0 : Int) : Int × Int × Int :=
  let z := z0 + 719468
  let era := z.fdiv 146097
  let doe := z - era * 146097
  let yoe := (doe - doe.fdiv 1460 + doe.fdiv 36524 - doe.fdiv 146096).fdiv 365
  let y := yoe + era * 400
  let doy := doe - (365 * yoe + yoe.fdiv 4 - yoe.fdiv 100)
  let mp := (5 * doy + 2).fdiv 153
  let d := doy - (153 * mp + 2).fdiv 5 + 1
  let m := mp + (if mp < 10 then 3 else -9)
  (if m ≤ 2 then y + 1 else y, m, d)

def daysInMonth (y m : Int) : Int :=
  if m = 2 then (if isLeap y then 29 else 28)
  else if m = 4 || m = 6 || m = 9 || m = 11 then 30
  else 31

/-- Numeric value of a digit character. -/
def digitVal (c : Char) : Int := (c.toNat : Int) - 48

/-- JS `new Date(string)` on the ISO `YYYY-MM-DD` date-only strings this
repository stores, at day granularity.  ISO parsing is strict: month must be
1..12 and day within the month.  Other date-string shapes are engine-legacy
formats the pipeline never feeds it, modelled as invalid. -/
def jsParseDate (s : Str) : Option Int :=
  match s with
  | [y1, y2, y3, y4, h1, m1, m2, h2, d1, d2] =>
    if h1 = '-' ∧ h2 = '-' ∧ ([y1, y2, y3, y4, m1, m2, d1, d2].all Char.isDigit) then
      let y := 1000 * digitVal y1 + 100 * digitVal y2 + 10 * digitVal y3 + digitVal y4
      let m := 10 * digitVal m1 + digitVal m2
      let d := 10 * digitVal d1 + digitVal d2
      if 1 ≤ m ∧ m ≤ 12 ∧ 1 ≤ d ∧ d ≤ daysInMonth y m then some (daysFromCivil y m d)
      else none
    else none
  | _ => none

/-! The date normalizer `CommunicationDataService.convertToISO`.  The regular
expressions of the source are embedded as deterministic scanners: every
repetition in them is of a character class immediately followed by a
disjoint class (letters before whitespace, digits before a separator), so
greedy matching with backtracking coincides with taking each maximal run and
checking its length. -/

/-- Split off the longest run satisfying `p` (JS greedy class repetition). -/
def spanP (p : Char → Bool) : Str → (Str × Str)
  | [] => ([], [])
  | c :: cs => if p c then ((spanP p cs).1.cons c, (spanP p cs).2) else ([], c :: cs)

/-- Bounded decimal printing of a natural number (JS `Number.prototype.toString`
for the integers that arise here); the fuel covers any value below `10^12`. -/
def natToStrAux : Nat → Nat → List Char
  | 0, _ => []
  | fuel + 1, n =>
    if n < 10 then [Nat.digitChar n]
    else natToStrAux fuel (n / 10) ++ [Nat.digitChar (n % 10)]

def natToStr (n : Nat) : Str := natToStrAux 12 n

def intToStr (i : Int) : Str :=
  if i < 0 then '-' :: natToStr (-i).toNat else natToStr i.toNat

/-- JS `String.prototype.padStart(2, "0")`. -/
def padStart2 (s : Str) : Str := List.replicate (2 - s.length) '0' ++ s

def monthNames : List Str :=
  [strOf "January", strOf "February", strOf "March", strOf "April",
    strOf "May", strOf "June", strOf "July", strOf "August",
    strOf "September", strOf "October", strOf "November", strOf "December"]

/-- JS `Array.prototype.indexOf`: first index, or -1 when absent. -/
def jsIndexOfAux : List Str → Str → Int → Int
  | [], _, _ => -1
  | x :: xs, w, i => if x = w then i else jsIndexOfAux xs w (i + 1)

def jsIndexOf (l : List Str) (w : Str) : Int := jsIndexOfAux l w 0

/-- The month component computed by the source for the two month-name formats:
`(monthNames.indexOf(name) + 1).toString().padStart(2, "0")` — an unknown
name yields index -1 and hence the component `"00"`. -/
def monthNum (w : Str) : Str := padStart2 (intToStr (jsIndexOf monthNames w + 1))

/-- The `^\d\x7b4\x7d-\d\x7b2\x7d-\d\x7b2\x7d` anchored-at-start test: an ISO
date prefix, with anything allowed after it. -/
def isoHead : Str → Bool
  | a :: b :: c :: d :: e :: f :: g :: h :: i :: j :: _ =>
    a.isDigit && b.isDigit && c.isDigit && d.isDigit && e = '-' &&
      f.isDigit && g.isDigit && h = '-' && i.isDigit && j.isDigit
  | _ => false

/-- Format 1 of the source: full `Month Day, Year`.  Returns the (name, day,
year) capture groups. -/
def matchMDY (s : Str) : Option (Str × Str × Str) :=
  let t1 := spanP Char.isAlpha s
  let t2 := spanP Char.isWhitespace t1.2
  let t3 := spanP Char.isDigit t2.2
  if t1.1 = [] ∨ t2.1 = [] ∨ t3.1.length = 0 ∨ 2 < t3.1.length then none
  else
    match t3.2 with
    | ',' :: r4 =>
      if (spanP Char.isWhitespace r4).1 ≠ [] ∧
          (spanP Char.isDigit (spanP Char.isWhitespace r4).2).1.length = 4 ∧
          (spanP Char.isDigit (spanP Char.isWhitespace r4).2).2 = [] then
        some (t1.1, t3.1, (spanP Char.isDigit (spanP Char.isWhitespace r4).2).1)
      else none
    | _ => none

/-- Format 2 of the source: `Day Month Year`.  Returns (day, name, year). -/
def matchDMY (s : Str) : Option (Str × Str × Str) :=
  let t1 := spanP Char.isDigit s
  let t2 := spanP Char.isWhitespace t1.2
  let t3 := spanP Char.isAlpha t2.2
  let t4 := spanP Char.isWhitespace t3.2
  let t5 := spanP Char.isDigit t4.2
  if t1.1.length = 0 ∨ 2 < t1.1.length ∨ t2.1 = [] ∨ t3.1 = [] ∨ t4.1 = [] ∨
      t5.1.length ≠ 4 ∨ t5.2 ≠ [] then none
  else some (t1.1, t3.1, t5.1)

/-- Format 3 of the source: `MM/DD/YYYY` (two short runs, then a 4-digit one). -/
def matchSlash2 (s : Str) : Option (Str × Str × Str) :=
  let t1 := spanP Char.isDigit s
  match t1.2 with
  | '/' :: r2 =>
    match (spanP Char.isDigit r2).2 with
    | '/' :: r4 =>
      if 1 ≤ t1.1.length ∧ t1.1.length ≤ 2 ∧ 1 ≤ (spanP Char.isDigit r2).1.length ∧
          (spanP Char.isDigit r2).1.length ≤ 2 ∧ (spanP Char.isDigit r4).1.length = 4 ∧
          (spanP Char.isDigit r4).2 = [] then
        some (t1.1, (spanP Char.isDigit r2).1, (spanP Char.isDigit r4).1)
      else none
    | _ => none
  | _ => none

/-- Format 4 of the source: `YYYY/MM/DD`. -/
def matchSlash4 (s : Str) : Option (Str × Str × Str) :=
  let t1 := spanP Char.isDigit s
  match t1.2 with
  | '/' :: r2 =>
    match (spanP Char.isDigit r2).2 with
    | '/' :: r4 =>
      if t1.1.length = 4 ∧ 1 ≤ (spanP Char.isDigit r2).1.length ∧
          (spanP Char.isDigit r2).1.length ≤ 2 ∧ 1 ≤ (spanP Char.isDigit r4).1.length ∧
          (spanP Char.isDigit r4).1.length ≤ 2 ∧ (spanP Char.isDigit r4).2 = [] then
        some (t1.1, (spanP Char.isDigit r2).1, (spanP Char.isDigit r4).1)
      else none
    | _ => none
  | _ => none

/-- Numeric value of a digit run. -/
def digitsVal (s : Str) : Nat := s.foldl (fun acc c => 10 * acc + (c.toNat - 48)) 0

/-- JS `new Date("M/D/YYYY")` for the slash format, at day granularity: the
engine's legacy parser accepts month 1..12 and day 1..31 (day overflow past
the month's length rolls into the next month via the timestamp); everything
else is an invalid date.  Returns the `(getFullYear, getMonth + 1, getDate)`
triple. -/
def jsParseSlash (m d y : Nat) : Option (Int × Int × Int) :=
  if 1 ≤ m ∧ m ≤ 12 ∧ 1 ≤ d ∧ d ≤ 31 then some (civilFromDays (jsDays y m d))
  else none

/-- The last stop of the format cascade: the `YYYY/MM/DD` pattern, reached
both when the slash pattern before it fails to match and when its generic
date parse fails (the source's `continue`). -/
def convertTail (s : Str) : Str :=
  match matchSlash4 s with
  | some (y4, mo, dy) => y4 ++ '-' :: padStart2 mo ++ '-' :: padStart2 dy
  | none => s

/-- Formats 3 and 4 of the cascade. -/
def convertSlash (s : Str) : Str :=
  match matchSlash2 s with
  | some (a, b, y) =>
    match jsParseSlash (digitsVal a) (digitsVal b) (digitsVal y) with
    | some (yy, mm, dd) =>
      intToStr yy ++ '-' :: padStart2 (intToStr mm) ++ '-' :: padStart2 (intToStr dd)
    | none => convertTail s
  | none => convertTail s

/-- `CommunicationDataService.convertToISO`: the ISO-start test, then the four
formats in order, falling through on the slash format when the generic date
parse fails, and returning the input unchanged when nothing matches. -/
def convertToISO (s : Str) : Str :=
  if isoHead s then s
  else
    match matchMDY s with
    | some (mon, day, yr) => yr ++ '-' :: monthNum mon ++ '-' :: padStart2 day
    | none =>
      match matchDMY s with
      | some (day, mon, yr) => yr ++ '-' :: monthNum mon ++ '-' :: padStart2 day
      | none => convertSlash s

end Comm

namespace Comm

/-! Character-class and scanner lemmas. -/

theorem ws_not_digit {c : Char} (h : c.isWhitespace = true) : c.isDigit = false := by
  simp only [Char.isWhitespace, Bool.or_eq_true, decide_eq_true_eq] at h
  rcases h with ((rfl | rfl) | rfl) | rfl <;> decide

theorem digit_not_ws {c : Char} (h : c.isDigit = true) : c.isWhitespace = false := by
  cases hw : c.isWhitespace with
  | false => rfl
  | true => rw [ws_not_digit hw] at h; exact absurd h (by simp)

theorem digit_not_alpha {c : Char} (h : c.isDigit = true) : c.isAlpha = false := by
  simp only [Char.isDigit, Char.isAlpha, Char.isUpper, Char.isLower, Bool.and_eq_true,
    Bool.or_eq_false_iff, Bool.and_eq_false_iff, decide_eq_true_eq, decide_eq_false_iff_not,
    ge_iff_le, not_le, UInt32.le_def, UInt32.lt_def, BitVec.le_def, BitVec.lt_def,
    show ((48 : UInt32).toBitVec).toNat = 48 from rfl,
    show ((57 : UInt32).toBitVec).toNat = 57 from rfl,
    show ((65 : UInt32).toBitVec).toNat = 65 from rfl,
    show ((90 : UInt32).toBitVec).toNat = 90 from rfl,
    show ((97 : UInt32).toBitVec).toNat = 97 from rfl,
    show ((122 : UInt32).toBitVec).toNat = 122 from rfl] at h ⊢
  omega

theorem alpha_not_digit {c : Char} (h : c.isAlpha = true) : c.isDigit = false := by
  cases hd : c.isDigit with
  | false => rfl
  | true => rw [digit_not_alpha hd] at h; exact absurd h (by simp)

theorem spanP_fst_all (p : Char → Bool) :
    ∀ s : Str, ∀ c ∈ (spanP p s).1, p c = true := by
  intro s
  induction s with
  | nil => simp [spanP]
  | cons a rest ih =>
    intro c hc
    by_cases ha : p a = true
    · rw [spanP, if_pos ha] at hc
      rcases List.mem_cons.mp hc with rfl | h2
      · exact ha
      · exact ih c h2
    · rw [spanP, if_neg ha] at hc
      exact absurd hc (List.not_mem_nil c)

theorem spanP_nil_of_head {p : Char → Bool} {c : Char} (cs : Str) (h : p c = false) :
    spanP p (c :: cs) = ([], c :: cs) := by
  rw [spanP, if_neg (by simp [h])]

theorem spanP_append {p : Char → Bool} :
    ∀ (xs : Str) {y : Char} (ys : Str), (∀ c ∈ xs, p c = true) → p y = false →
      spanP p (xs ++ y :: ys) = (xs, y :: ys) := by
  intro xs
  induction xs with
  | nil => intro y ys _ hy; exact spanP_nil_of_head ys hy
  | cons a rest ih =>
    intro y ys hall hy
    have ha : p a = true := hall a (List.mem_cons_self _ _)
    rw [List.cons_append, spanP, if_pos ha,
      ih ys (fun c hc => hall c (List.mem_cons_of_mem _ hc)) hy]

theorem spanP_all {p : Char → Bool} :
    ∀ (xs : Str), (∀ c ∈ xs, p c = true) → spanP p xs = (xs, []) := by
  intro xs
  induction xs with
  | nil => intro _; rfl
  | cons a rest ih =>
    intro hall
    rw [spanP, if_pos (hall a (List.mem_cons_self _ _)),
      ih (fun c hc => hall c (List.mem_cons_of_mem _ hc))]

/-! Decimal printing lemmas. -/

theorem digitChar_isDigit {n : Nat} (h : n < 10) : (Nat.digitChar n).isDigit = true := by
  interval_cases n <;> decide

theorem natToStrAux_digits :
    ∀ (fuel n : Nat), ∀ c ∈ natToStrAux fuel n, c.isDigit = true := by
  intro fuel
  induction fuel with
  | zero => intro n c hc; exact absurd hc (List.not_mem_nil c)
  | succ f ih =>
    intro n c hc
    rw [natToStrAux] at hc
    by_cases hn : n < 10
    · rw [if_pos hn] at hc
      rcases List.mem_cons.mp hc with rfl | h2
      · exact digitChar_isDigit hn
      · exact absurd h2 (List.not_mem_nil c)
    · rw [if_neg hn] at hc
      rcases List.mem_append.mp hc with h1 | h2
      · exact ih _ c h1
      · rcases List.mem_cons.mp h2 with rfl | h3
        · exact digitChar_isDigit (Nat.mod_lt _ (by omega))
        · exact absurd h3 (List.not_mem_nil c)

theorem natToStr_digits (n : Nat) : ∀ c ∈ natToStr n, c.isDigit = true :=
  natToStrAux_digits 12 n

/-! Behavior of the matchers on the normalizer's own outputs: every output
starts either with a digit run followed by a dash, or with a dash, and no
pattern of the cascade can match such a string. -/

theorem isoHead_false_of_head {c : Char} (h : c.isDigit = false) (cs : Str) :
    isoHead (c :: cs) = false := by
  unfold isoHead
  split
  · next a b c' d e f g h' i j rest heq =>
    rw [List.cons.injEq] at heq
    obtain ⟨rfl, -⟩ := heq
    simp [h]
  · rfl

theorem matchMDY_none_of_head {c : Char} (h : c.isAlpha = false) (cs : Str) :
    matchMDY (c :: cs) = none := by
  rw [matchMDY, spanP_nil_of_head cs h]
  simp

theorem matchDMY_none_dash (Y R : Str) (hdig : ∀ c ∈ Y, c.isDigit = true) :
    matchDMY (Y ++ '-' :: R) = none := by
  rw [matchDMY, spanP_append Y R hdig (by decide),
    spanP_nil_of_head R (by decide : ('-' : Char).isWhitespace = false)]
  simp

theorem matchSlash2_none_dash (Y R : Str) (hdig : ∀ c ∈ Y, c.isDigit = true) :
    matchSlash2 (Y ++ '-' :: R) = none := by
  rw [matchSlash2, spanP_append Y R hdig (by decide)]
  simp

theorem matchSlash4_none_dash (Y R : Str) (hdig : ∀ c ∈ Y, c.isDigit = true) :
    matchSlash4 (Y ++ '-' :: R) = none := by
  rw [matchSlash4, spanP_append Y R hdig (by decide)]
  simp

end Comm

namespace Comm

theorem convert_fix_shape (Y : Str) (R : Str) (hdig : ∀ c ∈ Y, c.isDigit = true) :
    convertToISO (Y ++ '-' :: R) = Y ++ '-' :: R := by
  have hMDY : matchMDY (Y ++ '-' :: R) = none := by
    cases Y with
    | nil => exact matchMDY_none_of_head (by decide) R
    | cons y ys =>
      rw [List.cons_append]
      exact matchMDY_none_of_head
        (digit_not_alpha (hdig y (List.mem_cons_self _ _))) _
  have hDMY := matchDMY_none_dash Y R hdig
  have hS2 := matchSlash2_none_dash Y R hdig
  have hS4 := matchSlash4_none_dash Y R hdig
  by_cases hiso : isoHead (Y ++ '-' :: R) = true
  · unfold convertToISO
    rw [if_pos hiso]
  · unfold convertToISO
    rw [if_neg hiso]
    simp only [hMDY, hDMY, convertSlash, hS2, convertTail, hS4]

theorem matchMDY_digits {s mon day yr : Str}
    (h : matchMDY s = some (mon, day, yr)) : ∀ c ∈ yr, c.isDigit = true := by
  rw [matchMDY] at h
  split at h
  · exact absurd h (by simp)
  · split at h
    · split at h
      · simp only [Option.some.injEq, Prod.mk.injEq] at h
        obtain ⟨-, -, rfl⟩ := h
        exact spanP_fst_all _ _
      · exact absurd h (by simp)
    · exact absurd h (by simp)

theorem matchDMY_digits {s day mon yr : Str}
    (h : matchDMY s = some (day, mon, yr)) : ∀ c ∈ yr, c.isDigit = true := by
  rw [matchDMY] at h
  split at h
  · exact absurd h (by simp)
  · simp only [Option.some.injEq, Prod.mk.injEq] at h
    obtain ⟨-, -, rfl⟩ := h
    exact spanP_fst_all _ _

theorem matchSlash4_digits {s y4 mo dy : Str}
    (h : matchSlash4 s = some (y4, mo, dy)) : ∀ c ∈ y4, c.isDigit = true := by
  rw [matchSlash4] at h
  split at h
  · split at h
    · split at h
      · simp only [Option.some.injEq, Prod.mk.injEq] at h
        obtain ⟨rfl, -, -⟩ := h
        exact spanP_fst_all _ _
      · exact absurd h (by simp)
    · exact absurd h (by simp)
  · exact absurd h (by simp)

theorem convertTail_idem_aux {s : Str} (hct : convertToISO s = convertTail s) :
    convertToISO (convertToISO s) = convertToISO s := by
  cases h4 : matchSlash4 s with
  | some v =>
    obtain ⟨y4, mo, dy⟩ := v
    have hout : convertToISO s = y4 ++ '-' :: (padStart2 mo ++ '-' :: padStart2 dy) := by
      rw [hct]; unfold convertTail; simp only [h4]; simp
    rw [hout]
    exact convert_fix_shape y4 _ (matchSlash4_digits h4)
  | none =>
    have hid : convertToISO s = s := by rw [hct]; unfold convertTail; simp only [h4]
    rw [hid]; exact hid

/-- C6: the date normalizer is idempotent on every input string: already-ISO
strings and unparsable strings are returned unchanged, and every produced
normalization starts with a digit run (or a minus sign) followed by a dash,
a shape no pattern of the cascade can match again. -/
theorem convertToISO_idem (s : Str) : convertToISO (convertToISO s) = convertToISO s := by
  by_cases hiso : isoHead s = true
  · have h : convertToISO s = s := by unfold convertToISO; rw [if_pos hiso]
    rw [h]; exact h
  · cases hm : matchMDY s with
    | some v =>
      obtain ⟨mon, day, yr⟩ := v
      have hout : convertToISO s = yr ++ '-' :: (monthNum mon ++ '-' :: padStart2 day) := by
        unfold convertToISO; rw [if_neg hiso]; simp only [hm]; simp
      rw [hout]
      exact convert_fix_shape yr _ (matchMDY_digits hm)
    | none =>
      cases hd : matchDMY s with
      | some v =>
        obtain ⟨day, mon, yr⟩ := v
        have hout : convertToISO s = yr ++ '-' :: (monthNum mon ++ '-' :: padStart2 day) := by
          unfold convertToISO; rw [if_neg hiso]; simp only [hm, hd]; simp
        rw [hout]
        exact convert_fix_shape yr _ (matchDMY_digits hd)
      | none =>
        have hcs : convertToISO s = convertSlash s := by
          unfold convertToISO; rw [if_neg hiso]; simp only [hm, hd]
        cases h2 : matchSlash2 s with
        | some v =>
          obtain ⟨a, b, y⟩ := v
          cases hp : jsParseSlash (digitsVal a) (digitsVal b) (digitsVal y) with
          | some w =>
            obtain ⟨yy, mm, dd⟩ := w
            have hout : convertToISO s =
                intToStr yy ++ '-' :: (padStart2 (intToStr mm) ++ '-' :: padStart2 (intToStr dd)) := by
              rw [hcs]; unfold convertSlash; simp only [h2, hp]; simp
            rw [hout]
            by_cases hneg : yy < 0
            · rw [intToStr, if_pos hneg, List.cons_append]
              exact convert_fix_shape [] _ (by simp)
            · rw [intToStr, if_neg hneg]
              exact convert_fix_shape _ _ (natToStr_digits _)
          | none =>
            refine convertTail_idem_aux ?_
            rw [hcs]; unfold convertSlash; simp only [h2, hp]
        | none =>
          refine convertTail_idem_aux ?_
          rw [hcs]; unfold convertSlash; simp only [h2]

end Comm

namespace Comm

theorem jsIndexOfAux_not_mem {l : List Str} {w : Str} (h : w ∉ l) :
    ∀ i, jsIndexOfAux l w i = -1 := by
  induction l with
  | nil => intro i; rfl
  | cons x xs ih =>
    intro i
    have hxw : ¬ x = w := by
      intro he
      subst he
      exact h (List.mem_cons_self _ _)
    rw [jsIndexOfAux, if_neg hxw, ih (fun hm => h (List.mem_cons_of_mem _ hm))]

theorem monthNum_unknown {w : Str} (h : w ∉ monthNames) : monthNum w = ['0', '0'] := by
  rw [monthNum, jsIndexOf, jsIndexOfAux_not_mem h 0]
  decide

theorem matchMDY_shape (w day yr : Str)
    (hw : w ≠ []) (hwa : ∀ c ∈ w, c.isAlpha = true)
    (hd : day ≠ []) (hd2 : day.length ≤ 2) (hdd : ∀ c ∈ day, c.isDigit = true)
    (hy4 : yr.length = 4) (hyd : ∀ c ∈ yr, c.isDigit = true) :
    matchMDY (w ++ ' ' :: (day ++ ',' :: ' ' :: yr)) = some (w, day, yr) := by
  obtain ⟨d0, day', rfl⟩ : ∃ d0 day', day = d0 :: day' := by
    cases day with
    | nil => exact absurd rfl hd
    | cons a l => exact ⟨a, l, rfl⟩
  obtain ⟨y0, yr', rfl⟩ : ∃ y0 yr', yr = y0 :: yr' := by
    cases yr with
    | nil => simp at hy4
    | cons a l => exact ⟨a, l, rfl⟩
  have e1 : spanP Char.isAlpha (w ++ ' ' :: (d0 :: day' ++ ',' :: ' ' :: (y0 :: yr'))) =
      (w, ' ' :: (d0 :: day' ++ ',' :: ' ' :: (y0 :: yr'))) :=
    spanP_append w _ hwa (by decide)
  have e2 : spanP Char.isWhitespace (' ' :: (d0 :: day' ++ ',' :: ' ' :: (y0 :: yr'))) =
      ([' '], d0 :: day' ++ ',' :: ' ' :: (y0 :: yr')) := by
    have hsh : (' ' :: (d0 :: day' ++ ',' :: ' ' :: (y0 :: yr'))) =
        [' '] ++ d0 :: (day' ++ ',' :: ' ' :: (y0 :: yr')) := by simp
    rw [hsh, spanP_append [' '] _ (by decide) (digit_not_ws (hdd d0 (List.mem_cons_self _ _)))]
    simp
  have e3 : spanP Char.isDigit (d0 :: day' ++ ',' :: ' ' :: (y0 :: yr')) =
      (d0 :: day', ',' :: ' ' :: (y0 :: yr')) :=
    spanP_append (d0 :: day') _ hdd (by decide)
  have e4 : spanP Char.isWhitespace (' ' :: (y0 :: yr')) = ([' '], y0 :: yr') := by
    have hsh : (' ' :: (y0 :: yr')) = [' '] ++ y0 :: yr' := by simp
    rw [hsh, spanP_append [' '] _ (by decide) (digit_not_ws (hyd y0 (List.mem_cons_self _ _)))]
  have e5 : spanP Char.isDigit (y0 :: yr') = (y0 :: yr', []) := spanP_all _ hyd
  have hlen1 : day'.length ≤ 1 := by simpa using hd2
  rw [matchMDY, e1]
  simp only [e2, e3, e4, e5, hy4]
  rw [if_neg (by simp [hw]; omega)]
  simp

/-- C10: an input of the shape `Word D, YYYY` whose word is alphabetic but not
one of the twelve capitalized English month names (for example a lower-case
spelling) normalizes to `YYYY-00-DD` — the unknown name indexes to -1, giving
month component `"00"` — rather than being returned unchanged. -/
theorem convert_unknown_month (w day yr : Str)
    (hw : w ≠ []) (hwa : ∀ c ∈ w, c.isAlpha = true) (hwm : w ∉ monthNames)
    (hd : day ≠ []) (hd2 : day.length ≤ 2) (hdd : ∀ c ∈ day, c.isDigit = true)
    (hy4 : yr.length = 4) (hyd : ∀ c ∈ yr, c.isDigit = true) :
    convertToISO (w ++ ' ' :: (day ++ ',' :: ' ' :: yr)) =
      yr ++ '-' :: '0' :: '0' :: '-' :: padStart2 day ∧
    convertToISO (w ++ ' ' :: (day ++ ',' :: ' ' :: yr)) ≠
      w ++ ' ' :: (day ++ ',' :: ' ' :: yr) := by
  obtain ⟨w0, w', rfl⟩ : ∃ w0 w', w = w0 :: w' := by
    cases w with
    | nil => exact absurd rfl hw
    | cons a l => exact ⟨a, l, rfl⟩
  have hiso : isoHead (w0 :: (w' ++ ' ' :: (day ++ ',' :: ' ' :: yr))) = false :=
    isoHead_false_of_head (alpha_not_digit (hwa w0 (List.mem_cons_self _ _))) _
  have hmdy := matchMDY_shape (w0 :: w') day yr hw hwa hd hd2 hdd hy4 hyd
  have hout : convertToISO (w0 :: w' ++ ' ' :: (day ++ ',' :: ' ' :: yr)) =
      yr ++ '-' :: '0' :: '0' :: '-' :: padStart2 day := by
    unfold convertToISO
    rw [if_neg (by simp only [List.cons_append, hiso]; simp)]
    simp only [hmdy, monthNum_unknown hwm]
    simp
  refine ⟨hout, ?_⟩
  rw [hout]
  intro heq
  obtain ⟨y0, yr', rfl⟩ : ∃ y0 yr', yr = y0 :: yr' := by
    cases yr with
    | nil => simp at hy4
    | cons a l => exact ⟨a, l, rfl⟩
  rw [List.cons_append, List.cons_append] at heq
  have h0 : y0 = w0 := (List.cons.injEq _ _ _ _).mp heq |>.1
  have := hyd y0 (List.mem_cons_self _ _)
  rw [h0, alpha_not_digit (hwa w0 (List.mem_cons_self _ _))] at this
  exact absurd this (by simp)

theorem convert_unknown_month_witness :
    ((strOf "february" ≠ []) ∧ (∀ c ∈ strOf "february", c.isAlpha = true) ∧
      strOf "february" ∉ monthNames ∧ (strOf "5" ≠ []) ∧ (strOf "5").length ≤ 2 ∧
      (∀ c ∈ strOf "5", c.isDigit = true) ∧ (strOf "2025").length = 4 ∧
      (∀ c ∈ strOf "2025", c.isDigit = true)) ∧
    (convertToISO (strOf "february" ++ ' ' :: (strOf "5" ++ ',' :: ' ' :: strOf "2025")) =
        strOf "2025" ++ '-' :: '0' :: '0' :: '-' :: padStart2 (strOf "5") ∧
      convertToISO (strOf "february" ++ ' ' :: (strOf "5" ++ ',' :: ' ' :: strOf "2025")) ≠
        strOf "february" ++ ' ' :: (strOf "5" ++ ',' :: ' ' :: strOf "2025")) :=
  ⟨by decide,
    convert_unknown_month _ _ _ (by decide) (by decide) (by decide) (by decide)
      (by decide) (by decide) (by decide) (by decide)⟩

end Comm

namespace Comm

/-! The filtering engine `CommunicationDataService`. -/

/-- The `activeFilters` object: three selection lists plus the timeframe label. -/
structure ActiveFilters where
  topics : List Str
  productCategories : List Str
  communicationType : List Str
  timeframe : Str
deriving DecidableEq, Repr

/-- The engine state (record collection, last computed result, filter state,
search term, sort order). -/
structure EngineState where
  data : List Item
  filteredData : List Item
  activeFilters : ActiveFilters
  searchTerm : Str
  sortOrder : Str
deriving DecidableEq, Repr

/-- `filterDate.setMonth(m - k)` followed by `filterDate.setDate(d)`: shift
months (normalizing), then re-set the day-of-month (normalizing again). -/
def monthShiftResetDay (y m d k : Int) : Int :=
  let c := civilFromDays (jsDays y (m - k) d)
  jsDays c.1 c.2.1 d

/-- The cutoff the source computes from the current date (the past-record
branch of the timeframe filter): each case mirrors one `switch` case; an
unrecognized label leaves the cutoff at `now`, exactly as the `switch` with no
matching case leaves `filterDate = new Date()`. -/
def pastWindowStart (now : Int) (tf : Str) : Int :=
  let c := civilFromDays now
  if tf = strOf "Last Week" then jsDays c.1 c.2.1 (c.2.2 - 7)
  else if tf = strOf "Last Month" then monthShiftResetDay c.1 c.2.1 c.2.2 1
  else if tf = strOf "Last 3 Months" then monthShiftResetDay c.1 c.2.1 c.2.2 3
  else if tf = strOf "Last 6 Months" then monthShiftResetDay c.1 c.2.1 c.2.2 6
  else if tf = strOf "Last 9 Months" then monthShiftResetDay c.1 c.2.1 c.2.2 9
  else if tf = strOf "Last Year" then
    let c2 := civilFromDays (jsDays (c.1 - 1) c.2.1 c.2.2)
    jsDays c2.1 c2.2.1 c.2.2
  else now

/-- The cutoff the source computes from a future-dated record's own date (no
`setDate` reset on the month shifts in this branch). -/
def futureWindowStart (d : Int) (tf : Str) : Int :=
  let c := civilFromDays d
  if tf = strOf "Last Week" then jsDays c.1 c.2.1 (c.2.2 - 7)
  else if tf = strOf "Last Month" then jsDays c.1 (c.2.1 - 1) c.2.2
  else if tf = strOf "Last 3 Months" then jsDays c.1 (c.2.1 - 3) c.2.2
  else if tf = strOf "Last 6 Months" then jsDays c.1 (c.2.1 - 6) c.2.2
  else if tf = strOf "Last 9 Months" then jsDays c.1 (c.2.1 - 9) c.2.2
  else if tf = strOf "Last Year" then jsDays (c.1 - 1) c.2.1 c.2.2
  else d

/-- The per-record timeframe predicate: an unparsable date fails every
comparison and is dropped; a future-dated record is kept iff it is on or after
the cutoff computed from its own date; otherwise the record is kept iff it
lies in `[cutoff, now]`. -/
def keepTimeframe (now : Int) (tf : Str) (it : Item) : Bool :=
  match jsParseDate it.date with
  | none => false
  | some d =>
    if now < d then decide (futureWindowStart d tf ≤ d)
    else decide (pastWindowStart now tf ≤ d ∧ d ≤ now)

/-- Step 1 of `applyFilters`: skipped entirely for `All Time`. -/
def timeframeStage (now : Int) (tf : Str) (l : List Item) : List Item :=
  if tf = strOf "All Time" then l else l.filter (keepTimeframe now tf)

/-- Step 2 of `applyFilters`: keep the records present in the search results
(the search index is always built over the full collection with summary
indexing off, as in the service's constructor). -/
def searchStage (data : List Item) (term : Str) (l : List Item) : List Item :=
  if trim term = [] then l
  else l.filter (fun it => (search data false term).contains it)

/-- One facet test of step 3: OR across the selected values of one facet,
array containment for array-valued properties, equality for scalars. -/
def entryPass (sel : List Str) (p : FacetVal) : Bool :=
  match p with
  | FacetVal.arr vs => sel.any (fun v => vs.contains v)
  | FacetVal.scalar s => sel.contains s

/-- AND across the facets that have at least one selection. -/
def facetPass (af : ActiveFilters) (it : Item) : Bool :=
  (af.topics.isEmpty || entryPass af.topics it.topic) &&
  (af.productCategories.isEmpty || entryPass af.productCategories it.productCategory) &&
  (af.communicationType.isEmpty || entryPass af.communicationType it.communicationType)

/-- Step 3 of `applyFilters`: skipped when no facet has a selection. -/
def facetStage (af : ActiveFilters) (l : List Item) : List Item :=
  if af.topics.isEmpty && af.productCategories.isEmpty && af.communicationType.isEmpty then l
  else l.filter (facetPass af)

/-- The source's sort comparator value `dateB - dateA` (for `newest`) or
`dateA - dateB` (for `oldest`).  When either date is invalid the subtraction
is `NaN`, which the ECMAScript sort treats as comparator value `+0`; the pair
order of such records is implementation-defined, which the model resolves by
placing invalid-date records first. -/
def dateLe (ord : Str) (a b : Item) : Bool :=
  match jsParseDate a.date, jsParseDate b.date with
  | some x, some y => if ord = strOf "newest" then decide (y ≤ x) else decide (x ≤ y)
  | none, _ => true
  | some _, none => false

/-- Step 4 of `applyFilters`: the stable sort by parsed date. -/
def sortStep (ord : Str) (l : List Item) : List Item := l.mergeSort (dateLe ord)

/-- `CommunicationDataService.applyFilters`, with the current time passed
explicitly (the source reads `new Date()`). -/
def applyFilters (now : Int) (st : EngineState) : EngineState :=
  let result :=
    sortStep st.sortOrder
      (facetStage st.activeFilters
        (searchStage st.data st.searchTerm
          (timeframeStage now st.activeFilters.timeframe st.data)))
  { st with filteredData := result }

/-- The member access `this.activeFilters[filterType]` for the three
array-valued keys; any other key reads `undefined`. -/
def facetKeyGet (af : ActiveFilters) (name : Str) : Option (List Str) :=
  if name = strOf "topics" then some af.topics
  else if name = strOf "product-categories" then some af.productCategories
  else if name = strOf "communication-type" then some af.communicationType
  else none

def facetKeySet (af : ActiveFilters) (name : Str) (l : List Str) : ActiveFilters :=
  if name = strOf "topics" then { af with topics := l }
  else if name = strOf "product-categories" then { af with productCategories := l }
  else if name = strOf "communication-type" then { af with communicationType := l }
  else af

/-- JS `indexOf` + `splice(index, 1)`: remove the first occurrence, if any. -/
def removeFirst : List Str → Str → List Str
  | [], _ => []
  | x :: xs, v => if x = v then xs else x :: removeFirst xs v

def typeErr : Str := strOf "TypeError"

/-- `CommunicationDataService.updateFilter`.  For the three known facet keys it
adds or removes the value and recomputes.  For the key `timeframe` the stored
value is a string, so `.includes`/`.indexOf` are the (substring) string
methods, while `.push`/`.splice` do not exist and throw.  For any other key
the member access yields `undefined` and the first method call throws. -/
def updateFilter (now : Int) (st : EngineState) (ft v : Str) (isActive : Bool) :
    Except Str EngineState :=
  match facetKeyGet st.activeFilters ft with
  | some sel =>
    let sel' := if isActive then (if sel.contains v then sel else sel ++ [v])
                else removeFirst sel v
    Except.ok (applyFilters now { st with activeFilters := facetKeySet st.activeFilters ft sel' })
  | none =>
    if ft = strOf "timeframe" then
      if isActive then
        if containsStr st.activeFilters.timeframe v then Except.ok (applyFilters now st)
        else Except.error typeErr
      else
        if containsStr st.activeFilters.timeframe v then Except.error typeErr
        else Except.ok (applyFilters now st)
    else Except.error typeErr

/-- `CommunicationDataService.removeFilter`: resets the timeframe for the
`timeframe` key, removes the first occurrence for the known facet keys, and
throws on the `indexOf` member access for unknown keys. -/
def removeFilter (now : Int) (st : EngineState) (ft v : Str) : Except Str EngineState :=
  if ft = strOf "timeframe" then
    Except.ok (applyFilters now
      { st with activeFilters := { st.activeFilters with timeframe := strOf "All Time" } })
  else
    match facetKeyGet st.activeFilters ft with
    | some sel =>
      Except.ok (applyFilters now
        { st with activeFilters := facetKeySet st.activeFilters ft (removeFirst sel v) })
    | none => Except.error typeErr

/-- The page window of `CardListComponent.renderCards`:
`isShowingAll ? data : data.slice(0, currentPage * cardsPerPage)`. -/
def windowed (resultSet : List Item) (pageSize currentPage : Nat) (showAll : Bool) : List Item :=
  if showAll then resultSet else resultSet.take (currentPage * pageSize)

end Comm

namespace Comm

/-- Interval membership, following the spec's phrasing of the timeframe rule. -/
def inWindow (lo x hi : Int) : Prop := lo ≤ x ∧ x ≤ hi

/-- C2: under a non-`All Time` timeframe, a record whose date is not in the
future relative to now survives the timeframe stage iff its date lies in
`[now - window, now]`, and a future-dated record survives iff its date lies in
`[record - window, record]` (the window re-anchored to the record's own date;
the upper bound is then trivially met, which is why the source checks only the
lower one). -/
theorem timeframe_window_iff (now : Int) (tf : Str) (l : List Item) (it : Item) (d : Int)
    (htf : tf ∈ [strOf "Last Year", strOf "Last 9 Months", strOf "Last 6 Months",
      strOf "Last 3 Months", strOf "Last Month", strOf "Last Week"])
    (hd : jsParseDate it.date = some d) :
    (it ∈ timeframeStage now tf l ↔
      it ∈ l ∧ (if now < d then inWindow (futureWindowStart d tf) d d
                else inWindow (pastWindowStart now tf) d now)) := by
  have hne : ¬ tf = strOf "All Time" := by
    simp only [List.mem_cons, List.not_mem_nil, or_false] at htf
    rcases htf with rfl | rfl | rfl | rfl | rfl | rfl <;> decide
  rw [timeframeStage, if_neg hne, List.mem_filter]
  simp only [keepTimeframe, hd]
  by_cases hlt : now < d
  · simp [hlt, inWindow]
  · simp [hlt, inWindow]

/-- The two fixture records of the spec's end-to-end scenarios. -/
def fanItem : Item :=
  ⟨strOf "Fan Array Guide", none, strOf "2024-10-28", FacetVal.arr [strOf "A"],
    FacetVal.scalar [], FacetVal.scalar []⟩

def louverItem : Item :=
  ⟨strOf "Louver Update", none, strOf "2025-03-10", FacetVal.arr [strOf "B"],
    FacetVal.scalar [], FacetVal.scalar []⟩

theorem timeframe_window_iff_witness :
    (strOf "Last Month" ∈ [strOf "Last Year", strOf "Last 9 Months", strOf "Last 6 Months",
        strOf "Last 3 Months", strOf "Last Month", strOf "Last Week"] ∧
      jsParseDate louverItem.date = some (daysFromCivil 2025 3 10)) ∧
    (louverItem ∈ timeframeStage (jsDays 2024 11 20) (strOf "Last Month") [louverItem] ↔
      louverItem ∈ [louverItem] ∧
      (if jsDays 2024 11 20 < daysFromCivil 2025 3 10 then
        inWindow (futureWindowStart (daysFromCivil 2025 3 10) (strOf "Last Month"))
          (daysFromCivil 2025 3 10) (daysFromCivil 2025 3 10)
      else inWindow (pastWindowStart (jsDays 2024 11 20) (strOf "Last Month"))
          (daysFromCivil 2025 3 10) (jsDays 2024 11 20))) :=
  ⟨⟨by decide, by decide⟩, timeframe_window_iff _ _ _ _ _ (by decide) (by decide)⟩

/-! Facet-filter stage: the claim's AND/OR law, stated through a predicate that
follows the spec's wording and proved equivalent to the stage of the source. -/

def matchesFacetSpec (sel : List Str) (p : FacetVal) : Prop :=
  match p with
  | FacetVal.arr vs => ∃ v ∈ sel, v ∈ vs
  | FacetVal.scalar s => s ∈ sel

def survivesSpec (af : ActiveFilters) (it : Item) : Prop :=
  (af.topics ≠ [] → matchesFacetSpec af.topics it.topic) ∧
  (af.productCategories ≠ [] → matchesFacetSpec af.productCategories it.productCategory) ∧
  (af.communicationType ≠ [] → matchesFacetSpec af.communicationType it.communicationType)

theorem entryPass_iff (sel : List Str) (p : FacetVal) :
    entryPass sel p = true ↔ matchesFacetSpec sel p := by
  cases p with
  | arr vs =>
    simp [entryPass, matchesFacetSpec, List.any_eq_true, List.contains, List.elem_eq_mem]
  | scalar s =>
    simp [entryPass, matchesFacetSpec, List.contains, List.elem_eq_mem]

theorem orEmpty_iff (sel : List Str) (p : FacetVal) :
    ((sel.isEmpty || entryPass sel p) = true) ↔ (sel ≠ [] → matchesFacetSpec sel p) := by
  by_cases hs : sel = []
  · simp [hs]
  · simp [hs, List.isEmpty_iff, entryPass_iff]

/-- C5: when at least one facet has a selection, a record survives the facet
stage iff, for every facet with at least one selected value, an array-valued
property shares at least one value with the selection (OR within the facet)
and a scalar-valued property equals one of the selected values — facets
combining by AND. -/
theorem facet_stage_iff (af : ActiveFilters) (l : List Item) (it : Item)
    (h : af.topics ≠ [] ∨ af.productCategories ≠ [] ∨ af.communicationType ≠ []) :
    (it ∈ facetStage af l ↔ it ∈ l ∧ survivesSpec af it) := by
  have hcond : ¬ (af.topics.isEmpty && (af.productCategories.isEmpty &&
      af.communicationType.isEmpty)) = true := by
    simp only [Bool.and_eq_true, List.isEmpty_iff]
    rintro ⟨h1, h2, h3⟩
    rcases h with h | h | h <;> contradiction
  rw [facetStage, if_neg (by simpa using hcond), List.mem_filter]
  have hiff : facetPass af it = true ↔ survivesSpec af it := by
    simp only [facetPass, Bool.and_eq_true, orEmpty_iff, survivesSpec]
    exact and_assoc
  rw [hiff]

theorem facet_stage_iff_witness :
    (([strOf "A"] : List Str) ≠ [] ∨ ([] : List Str) ≠ [] ∨ ([] : List Str) ≠ []) ∧
    (⟨strOf "Fan Array Guide", none, strOf "2024-10-28", FacetVal.arr [strOf "A", strOf "B"],
        FacetVal.scalar [], FacetVal.scalar []⟩ ∈
      facetStage ⟨[strOf "A"], [], [], strOf "All Time"⟩
        [⟨strOf "Fan Array Guide", none, strOf "2024-10-28", FacetVal.arr [strOf "A", strOf "B"],
          FacetVal.scalar [], FacetVal.scalar []⟩] ↔
      (⟨strOf "Fan Array Guide", none, strOf "2024-10-28", FacetVal.arr [strOf "A", strOf "B"],
          FacetVal.scalar [], FacetVal.scalar []⟩ : Item) ∈
        [⟨strOf "Fan Array Guide", none, strOf "2024-10-28", FacetVal.arr [strOf "A", strOf "B"],
          FacetVal.scalar [], FacetVal.scalar []⟩] ∧
      survivesSpec ⟨[strOf "A"], [], [], strOf "All Time"⟩
        ⟨strOf "Fan Array Guide", none, strOf "2024-10-28", FacetVal.arr [strOf "A", strOf "B"],
          FacetVal.scalar [], FacetVal.scalar []⟩) :=
  ⟨Or.inl (by decide), facet_stage_iff _ _ _ (Or.inl (by decide))⟩

/-- C8: the page window is the whole result set when showing all, regardless
of the page, and otherwise exactly the first `pageSize * currentPage` items of
the result set in their original relative order — hence
`min (pageSize * currentPage) (length)` items. -/
theorem windowed_spec (l : List Item) (ps cp : Nat) :
    windowed l ps cp true = l ∧
    windowed l ps cp false <+: l ∧
    (windowed l ps cp false).length = min (ps * cp) l.length := by
  refine ⟨rfl, ?_, ?_⟩
  · exact ⟨l.drop (cp * ps), List.take_append_drop _ _⟩
  · show (l.take (cp * ps)).length = _
    rw [List.length_take, Nat.mul_comm]

/-- The empty engine state used for concrete checks. -/
def emptyState : EngineState :=
  ⟨[], [], ⟨[], [], [], strOf "All Time"⟩, [], strOf "newest"⟩

/-- C1 counterexample: an unknown facet name makes `updateFilter` and
`removeFilter` throw (the member access on the missing selection list fails),
not act as a no-op. -/
theorem unknown_facet_throws_cex :
    updateFilter 0 emptyState (strOf "bogus") (strOf "x") true = Except.error typeErr ∧
    removeFilter 0 emptyState (strOf "bogus") (strOf "x") = Except.error typeErr := by
  constructor <;> rfl

/-- C1 (amended): for every facet name outside the four keys of
`activeFilters`, both `updateFilter` and `removeFilter` throw a `TypeError`
(the exception is raised before any mutation, so the state the caller holds is
unchanged, but the calls are not silent no-ops). -/
theorem unknown_facet_throws (now : Int) (st : EngineState) (ft v : Str) (act : Bool)
    (h : ft ∉ [strOf "topics", strOf "product-categories",
      strOf "communication-type", strOf "timeframe"]) :
    updateFilter now st ft v act = Except.error typeErr ∧
    removeFilter now st ft v = Except.error typeErr := by
  have h1 : ¬ ft = strOf "topics" := fun he => h (by simp [he])
  have h2 : ¬ ft = strOf "product-categories" := fun he => h (by simp [he])
  have h3 : ¬ ft = strOf "communication-type" := fun he => h (by simp [he])
  have h4 : ¬ ft = strOf "timeframe" := fun he => h (by simp [he])
  have hg : facetKeyGet st.activeFilters ft = none := by
    rw [facetKeyGet, if_neg h1, if_neg h2, if_neg h3]
  constructor
  · rw [updateFilter]
    simp only [hg]
    rw [if_neg h4]
  · rw [removeFilter, if_neg h4]
    simp only [hg]

theorem unknown_facet_throws_witness :
    (strOf "bogus" ∉ [strOf "topics", strOf "product-categories",
      strOf "communication-type", strOf "timeframe"]) ∧
    (updateFilter 0 emptyState (strOf "bogus") (strOf "y") false = Except.error typeErr ∧
      removeFilter 0 emptyState (strOf "bogus") (strOf "y") = Except.error typeErr) :=
  ⟨by decide, unknown_facet_throws _ _ _ _ _ (by decide)⟩

end Comm

namespace Comm

theorem mergeSort_pair {α : Type} (le : α → α → Bool) (a b : α) :
    [a, b].mergeSort le = if le a b then [a, b] else [b, a] := by
  rw [List.mergeSort]
  simp [List.splitInTwo, List.merge, List.mergeSort]

theorem dateLe_trans (ord : Str) :
    ∀ a b c, dateLe ord a b = true → dateLe ord b c = true → dateLe ord a c = true := by
  intro a b c hab hbc
  unfold dateLe at hab hbc ⊢
  cases hpa : jsParseDate a.date with
  | none => simp
  | some x =>
    cases hpb : jsParseDate b.date with
    | none => simp [hpa, hpb] at hab
    | some y =>
      cases hpc : jsParseDate c.date with
      | none => simp [hpb, hpc] at hbc
      | some z =>
        simp only [hpa, hpb, hpc] at hab hbc ⊢
        by_cases hord : ord = strOf "newest"
        · rw [if_pos hord] at hab hbc ⊢
          simp only [decide_eq_true_eq] at hab hbc ⊢
          omega
        · rw [if_neg hord] at hab hbc ⊢
          simp only [decide_eq_true_eq] at hab hbc ⊢
          omega

theorem dateLe_total (ord : Str) : ∀ a b, (dateLe ord a b || dateLe ord b a) = true := by
  intro a b
  unfold dateLe
  cases hpa : jsParseDate a.date with
  | none => simp
  | some x =>
    cases hpb : jsParseDate b.date with
    | none => simp
    | some y =>
      simp only [Bool.or_eq_true]
      by_cases hord : ord = strOf "newest"
      · rw [if_pos hord, if_pos hord]
        simp only [decide_eq_true_eq]
        omega
      · rw [if_neg hord, if_neg hord]
        simp only [decide_eq_true_eq]
        omega

/-- The engine state of the spec's end-to-end scenario 1: the two fixture
records, no active filters, default sort. -/
def exampleState : EngineState :=
  ⟨[fanItem, louverItem], [fanItem, louverItem], ⟨[], [], [], strOf "All Time"⟩,
    [], strOf "newest"⟩

/-- C7: the final recomputation stage is a stable sort of the surviving
records by parsed date — a permutation, pairwise descending for `newest` and
ascending for `oldest` on parsed dates, preserving the relative order of
records with equal parsed dates — and on the two fixture records with sort
`newest` the result order is Louver Update before Fan Array Guide. -/
theorem sort_stage_spec (l : List Item) :
    (sortStep (strOf "newest") l).Perm l ∧
    (sortStep (strOf "oldest") l).Perm l ∧
    ((sortStep (strOf "newest") l).Pairwise (fun a b => ∀ x y,
      jsParseDate a.date = some x → jsParseDate b.date = some y → y ≤ x)) ∧
    ((sortStep (strOf "oldest") l).Pairwise (fun a b => ∀ x y,
      jsParseDate a.date = some x → jsParseDate b.date = some y → x ≤ y)) ∧
    (∀ a b x, List.Sublist [a, b] l → jsParseDate a.date = some x →
      jsParseDate b.date = some x →
      List.Sublist [a, b] (sortStep (strOf "newest") l) ∧
        List.Sublist [a, b] (sortStep (strOf "oldest") l)) ∧
    (applyFilters (jsDays 2025 6 1) exampleState).filteredData = [louverItem, fanItem] := by
  refine ⟨List.mergeSort_perm l _, List.mergeSort_perm l _, ?_, ?_, ?_, ?_⟩
  · refine (List.sorted_mergeSort (dateLe_trans (strOf "newest"))
      (dateLe_total (strOf "newest")) l).imp ?_
    intro a b hab x y hx hy
    unfold dateLe at hab
    simp only [hx, hy] at hab
    simpa using hab
  · refine (List.sorted_mergeSort (dateLe_trans (strOf "oldest"))
      (dateLe_total (strOf "oldest")) l).imp ?_
    intro a b hab x y hx hy
    unfold dateLe at hab
    simp only [hx, hy] at hab
    rw [if_neg (by decide)] at hab
    simpa using hab
  · intro a b x hsub hx hy
    constructor
    · refine List.pair_sublist_mergeSort (dateLe_trans (strOf "newest"))
        (dateLe_total (strOf "newest")) ?_ hsub
      unfold dateLe
      simp only [hx, hy]
      simp
    · refine List.pair_sublist_mergeSort (dateLe_trans (strOf "oldest"))
        (dateLe_total (strOf "oldest")) ?_ hsub
      unfold dateLe
      simp only [hx, hy]
      simp
  · have h0 : (applyFilters (jsDays 2025 6 1) exampleState).filteredData =
        sortStep (strOf "newest") [fanItem, louverItem] := rfl
    rw [h0, sortStep, mergeSort_pair]
    rw [show dateLe (strOf "newest") fanItem louverItem = false from by decide]
    simp

end Comm
